import Mathlib

/-!
Shallow embedding of the chart-data engine of `reactor/graph.go`
(`CostGraph` and its `graphTicker`) from mashiike/aws-cost-anomaly-slack-reactor.

Modelling conventions:
* `time.Time` dates are modelled as `Nat`: the code only compares, sorts,
  deduplicates and formats dates.
* `float64` costs are modelled as `ℚ`: the code only adds and compares costs.
* Go maps are modelled as a lookup function together with a key list; every
  map iteration in the code feeds either a sort or a commutative accumulation,
  so a concrete key order is a sound stand-in for Go's arbitrary order.
* `sort.Slice` is modelled by `List.insertionSort` with the reflexive closure
  of the comparator; the comparators in the code are antisymmetric total
  orders, so the sorted result is the unique one the Go code may produce.
-/

/- Batteries marks the `Rat` arithmetic irreducible, which blocks `decide` on
concrete rational computations; restore the definitional behaviour locally so
concrete stores can be evaluated in proofs. -/
set_option allowUnsafeReducibility true
attribute [local semireducible] Rat.add Rat.sub Rat.neg Rat.mul Rat.div Rat.inv Rat.blt

/-- A recorded data point: the argument triple of `CostGraph.AddDataPoint`. -/
structure DataPoint where
  date : Nat
  cost : ℚ
  legend : String
deriving DecidableEq

/-- The identity of a data point: `(series_label, date)`. -/
def DataPoint.ident (p : DataPoint) : String × Nat := (p.legend, p.date)

/-- State of `CostGraph` (graph.go:16-20) merged with its `graphTicker`
(graph.go:155-159): `legends` lists the keys of the `dataPoints` map, `cost`
is the nested map lookup, `dates` lists the keys of the ticker's date set and
`cache` is the ticker's cached sorted date list. -/
structure CostGraph where
  legends : List String
  cost : String → Nat → Option ℚ
  dates : List Nat
  cache : Option (List Nat)

/-- `NewCostGraph` (graph.go:22-29): empty maps, no cache. -/
def NewCostGraph : CostGraph :=
  { legends := [], cost := fun _ _ => none, dates := [], cache := none }

/-- `CostGraph.AddDataPoint` (graph.go:31-39): create the inner map on a fresh
legend, store the cost under `(legend, t)` (overwriting), and record the date
in the ticker, which clears the tick cache (graph.go:161-166). -/
def CostGraph.AddDataPoint (g : CostGraph) (t : Nat) (c : ℚ) (legend : String) :
    CostGraph where
  legends := if legend ∈ g.legends then g.legends else g.legends ++ [legend]
  cost := fun l d => if l = legend ∧ d = t then some c else g.cost l d
  dates := if t ∈ g.dates then g.dates else g.dates ++ [t]
  cache := none

/-- A run of `AddDataPoint` calls, in list order. -/
def CostGraph.insertAll (g : CostGraph) (ps : List DataPoint) : CostGraph :=
  ps.foldl (fun h p => h.AddDataPoint p.date p.cost p.legend) g

/-- The sort in `graphTicker.Dates` (graph.go:178-180): ascending by
`time.Time.Before`. -/
def sortDates (l : List Nat) : List Nat := l.insertionSort (· ≤ ·)

/-- `graphTicker.Dates` (graph.go:168-183): the cached list if present, else
the sorted deduplicated date set. -/
def CostGraph.Dates (g : CostGraph) : List Nat :=
  match g.cache with
  | some c => c
  | none => sortDates g.dates

/-- `graphTicker.Len` (graph.go:185-187). -/
def CostGraph.Len (g : CostGraph) : Nat := g.Dates.length

/-- `maxSeries` (graph.go:41). -/
def maxSeries : Nat := 10

/-- The dense vector the fill loop builds for one legend (graph.go:63-72):
for each axis date in order, the recorded cost, or the `0` the loop writes
into the map when the date is absent. -/
def CostGraph.denseVec (g : CostGraph) (legend : String) : List ℚ :=
  g.Dates.map fun d => (g.cost legend d).getD 0

/-- `totals[legend]` (graph.go:60,71): the sum of the dense vector. -/
def CostGraph.total (g : CostGraph) (legend : String) : ℚ :=
  (g.denseVec legend).sum

/-- The reflexive closure of the `sort.Slice` comparator at graph.go:75-82:
`a` precedes `b` when `a` has the larger total, with ties broken by ascending
label. -/
def legendLE (total : String → ℚ) (a b : String) : Prop :=
  total b < total a ∨ (total a = total b ∧ a ≤ b)

instance (total : String → ℚ) : DecidableRel (legendLE total) := fun _ _ =>
  inferInstanceAs (Decidable (_ ∨ _))

/-- The sorted legend list (graph.go:74-82). -/
def CostGraph.sortedLegends (g : CostGraph) : List String :=
  g.legends.insertionSort (legendLE g.total)

/-- `legends[:maxSeries-1]` (graph.go:85): the kept top legends when the cap
is exceeded. -/
def CostGraph.topLegends (g : CostGraph) : List String :=
  g.sortedLegends.take (maxSeries - 1)

/-- The `others` accumulation (graph.go:87-105): starting from a zero vector
of axis length, add element-wise the dense vector of every legend that is not
in the kept top list. -/
def CostGraph.othersVec (g : CostGraph) : List ℚ :=
  (g.legends.filter fun l => l ∉ g.topLegends).foldl
    (fun acc l => acc.zipWith (· + ·) (g.denseVec l))
    (List.replicate g.Len 0)

/-- Lookup in the `after` map (graph.go:88-107): top legends keep their dense
vector, and the final write `after["Others"] = others` (graph.go:106) wins for
the key `"Others"` even when a real legend of that name was kept. -/
def CostGraph.afterVec (g : CostGraph) (l : String) : List ℚ :=
  if l = "Others" then g.othersVec else g.denseVec l

/-- The drawn series in draw order: the legend names the bar-chart loop
iterates (graph.go:118) paired with the vectors it reads (graph.go:119),
after the reduction step (graph.go:83-109). -/
def CostGraph.reducedSeries (g : CostGraph) : List (String × List ℚ) :=
  if maxSeries < g.legends.length then
    (g.topLegends ++ ["Others"]).map fun l => (l, g.afterVec l)
  else
    g.sortedLegends.map fun l => (l, g.denseVec l)

/-- `len(dataPoints)` at graph.go:138,143: the key count of the map the draw
loop sees, i.e. of `after` when reduction occurred, else of the original
materialized map. -/
def CostGraph.reducedCount (g : CostGraph) : Nat :=
  if maxSeries < g.legends.length then ((g.topLegends ++ ["Others"]).dedup).length
  else g.legends.dedup.length

/-- `maxLabels` (graph.go:189). -/
def maxLabels : Nat := 8

/-- One entry of the `[]plot.Tick` slice built at graph.go:194-206. -/
structure Tick where
  value : ℚ
  label : String
deriving DecidableEq

/-- `int(math.Ceil(float64(len(dates)) / float64(maxLabels)))` (graph.go:193):
exact, since both conversions and the division by 8 are exact in `float64`
for any realistic date count. -/
def tickInterval (n : Nat) : Nat := (n + (maxLabels - 1)) / maxLabels

/-- `date.Format("2006-01-02")` (graph.go:199), for dates modelled as `Nat`. -/
def formatDate (d : Nat) : String := toString d

/-- `graphTicker.Ticks` (graph.go:191-208) on an explicit date list. The axis
bounds `lo`/`hi` are the `min`/`max` float arguments, modelled as `ℚ`;
`int(float64(i)-min)` truncates toward zero, which equals the floor on the
guarded nonnegative range. -/
def ticksOf (dates : List Nat) (lo hi : ℚ) : List Tick :=
  let interval := tickInterval dates.length
  dates.enum.filterMap fun p =>
    if lo ≤ (p.1 : ℚ) ∧ (p.1 : ℚ) ≤ hi then
      some { value := (p.1 : ℚ)
             label := if ⌊(p.1 : ℚ) - lo⌋ % (interval : ℤ) ≠ 0 then "" else
               formatDate p.2 }
    else none

/-- `graphTicker.Ticks` on the ticker state. -/
def CostGraph.Ticks (g : CostGraph) (lo hi : ℚ) : List Tick :=
  ticksOf g.Dates lo hi

/-- The store state after `WriteTo` returns: the fill loop writes `dp[date] = 0`
for every (legend, axis-date) pair with no recorded entry (graph.go:66-69), and
`ticker.Dates()` leaves the sorted date list cached (graph.go:181). -/
def CostGraph.writeToState (g : CostGraph) : CostGraph where
  legends := g.legends
  cost := fun l d =>
    if l ∈ g.legends ∧ d ∈ g.Dates ∧ g.cost l d = none then some 0 else g.cost l d
  dates := g.dates
  cache := some g.Dates

/-- The render-relevant content of the plot `WriteTo` hands to the plot
library (graph.go:110-152): the stacked series in draw order, the legend
entries, the x-axis date list feeding the tick marker, and the titles. The
PNG raster is a fixed function of these. -/
structure RenderOutput where
  title : String
  yLabel : String
  series : List (String × List ℚ)
  legendEntries : List String
  axisDates : List Nat
deriving DecidableEq

/-- `plotter.NewBarChart` (graph.go:120): fails only on non-finite float
values, which have no counterpart in the exact-cost model. -/
def newBarChart (values : List ℚ) : Except String (List ℚ) := Except.ok values

/-- `plot.Plot.WriterTo` with format `"png"` (graph.go:148): fails only on an
unsupported format name. -/
def plotWriterTo (format : String) : Except String Unit :=
  if format = "png" then Except.ok () else Except.error "unsupported format"

/-- `CostGraph.WriteTo` (graph.go:56-153) as a function of the store state;
the state mutation it also performs is `CostGraph.writeToState`. -/
def CostGraph.WriteTo (g : CostGraph) (title yLabel : String) :
    Except String RenderOutput := do
  let bars ← g.reducedSeries.mapM fun s => do
    let v ← newBarChart s.2
    pure (s.1, v)
  let _ ← plotWriterTo "png"
  pure { title := title, yLabel := yLabel, series := bars,
         legendEntries := if 1 < g.reducedCount then bars.map Prod.fst else [],
         axisDates := g.Dates }

/-! ### State lemmas for `AddDataPoint` and `insertAll` -/

theorem CostGraph.insertAll_nil (g : CostGraph) : g.insertAll [] = g := rfl

theorem CostGraph.insertAll_cons (g : CostGraph) (p : DataPoint) (ps : List DataPoint) :
    g.insertAll (p :: ps) = (g.AddDataPoint p.date p.cost p.legend).insertAll ps := rfl

theorem CostGraph.mem_legends_AddDataPoint (g : CostGraph) (t : Nat) (c : ℚ)
    (l x : String) : x ∈ (g.AddDataPoint t c l).legends ↔ x ∈ g.legends ∨ x = l := by
  simp only [AddDataPoint]
  split <;> rename_i h
  · constructor
    · exact Or.inl
    · rintro (hx | rfl) <;> [exact hx; exact h]
  · simp only [List.mem_append, List.mem_singleton]

theorem CostGraph.nodup_legends_AddDataPoint (g : CostGraph) (t : Nat) (c : ℚ)
    (l : String) (h : g.legends.Nodup) : (g.AddDataPoint t c l).legends.Nodup := by
  simp only [AddDataPoint]
  split <;> rename_i hmem
  · exact h
  · simpa [List.nodup_append] using ⟨h, fun hx => hmem hx⟩

theorem CostGraph.mem_dates_AddDataPoint (g : CostGraph) (t : Nat) (c : ℚ)
    (l : String) (x : Nat) : x ∈ (g.AddDataPoint t c l).dates ↔ x ∈ g.dates ∨ x = t := by
  simp only [AddDataPoint]
  split <;> rename_i h
  · constructor
    · exact Or.inl
    · rintro (hx | rfl) <;> [exact hx; exact h]
  · simp only [List.mem_append, List.mem_singleton]

theorem CostGraph.nodup_dates_AddDataPoint (g : CostGraph) (t : Nat) (c : ℚ)
    (l : String) (h : g.dates.Nodup) : (g.AddDataPoint t c l).dates.Nodup := by
  simp only [AddDataPoint]
  split <;> rename_i hmem
  · exact h
  · simpa [List.nodup_append] using ⟨h, fun hx => hmem hx⟩

theorem CostGraph.mem_legends_insertAll (g : CostGraph) (ps : List DataPoint)
    (x : String) :
    x ∈ (g.insertAll ps).legends ↔ x ∈ g.legends ∨ x ∈ ps.map DataPoint.legend := by
  induction ps generalizing g with
  | nil => simp [insertAll_nil]
  | cons p ps ih =>
      rw [insertAll_cons, ih]
      rw [mem_legends_AddDataPoint]
      simp only [List.map_cons, List.mem_cons]
      tauto

theorem CostGraph.nodup_legends_insertAll (g : CostGraph) (ps : List DataPoint)
    (h : g.legends.Nodup) : (g.insertAll ps).legends.Nodup := by
  induction ps generalizing g with
  | nil => exact h
  | cons p ps ih =>
      rw [insertAll_cons]
      exact ih _ (nodup_legends_AddDataPoint _ _ _ _ h)

theorem CostGraph.mem_dates_insertAll (g : CostGraph) (ps : List DataPoint)
    (x : Nat) :
    x ∈ (g.insertAll ps).dates ↔ x ∈ g.dates ∨ x ∈ ps.map DataPoint.date := by
  induction ps generalizing g with
  | nil => simp [insertAll_nil]
  | cons p ps ih =>
      rw [insertAll_cons, ih]
      rw [mem_dates_AddDataPoint]
      simp only [List.map_cons, List.mem_cons]
      tauto

theorem CostGraph.nodup_dates_insertAll (g : CostGraph) (ps : List DataPoint)
    (h : g.dates.Nodup) : (g.insertAll ps).dates.Nodup := by
  induction ps generalizing g with
  | nil => exact h
  | cons p ps ih =>
      rw [insertAll_cons]
      exact ih _ (nodup_dates_AddDataPoint _ _ _ _ h)

theorem CostGraph.cache_insertAll (g : CostGraph) (ps : List DataPoint)
    (h : g.cache = none) : (g.insertAll ps).cache = none := by
  induction ps generalizing g with
  | nil => exact h
  | cons p ps ih => exact ih _ rfl

theorem CostGraph.cost_insertAll_of_not_mem (g : CostGraph) (ps : List DataPoint)
    (l : String) (d : Nat) (h : ∀ p ∈ ps, ¬(p.legend = l ∧ p.date = d)) :
    (g.insertAll ps).cost l d = g.cost l d := by
  induction ps generalizing g with
  | nil => rfl
  | cons p ps ih =>
      rw [insertAll_cons, ih _ fun q hq => h q (List.mem_cons_of_mem _ hq)]
      simp only [AddDataPoint]
      rw [if_neg]
      intro ⟨h1, h2⟩
      exact h p (List.mem_cons_self _ _) ⟨h1.symm, h2.symm⟩

theorem CostGraph.cost_insertAll_of_mem (g : CostGraph) (ps : List DataPoint)
    (p : DataPoint) (hn : (ps.map DataPoint.ident).Nodup) (hp : p ∈ ps) :
    (g.insertAll ps).cost p.legend p.date = some p.cost := by
  induction ps generalizing g with
  | nil => cases hp
  | cons q ps ih =>
      rw [insertAll_cons]
      rcases List.mem_cons.mp hp with rfl | hp'
      · rw [cost_insertAll_of_not_mem]
        · simp [AddDataPoint]
        · intro r hr ⟨h1, h2⟩
          have : r.ident ∈ ps.map DataPoint.ident := List.mem_map_of_mem _ hr
          simp only [List.map_cons, List.nodup_cons] at hn
          exact hn.1 (by simpa [DataPoint.ident, h1, h2] using this)
      · refine ih _ ?_ hp'
        simp only [List.map_cons, List.nodup_cons] at hn
        exact hn.2

/-! ### The legend comparator is an antisymmetric total preorder -/

theorem legendLE_total_rel (t : String → ℚ) (a b : String) :
    legendLE t a b ∨ legendLE t b a := by
  rcases lt_trichotomy (t a) (t b) with h | h | h
  · exact Or.inr (Or.inl h)
  · rcases le_total a b with hab | hab
    · exact Or.inl (Or.inr ⟨h, hab⟩)
    · exact Or.inr (Or.inr ⟨h.symm, hab⟩)
  · exact Or.inl (Or.inl h)

theorem legendLE_trans_rel (t : String → ℚ) (a b c : String)
    (h1 : legendLE t a b) (h2 : legendLE t b c) : legendLE t a c := by
  rcases h1 with h1 | ⟨h1, h1l⟩ <;> rcases h2 with h2 | ⟨h2, h2l⟩
  · exact Or.inl (h2.trans h1)
  · exact Or.inl (h2 ▸ h1)
  · exact Or.inl (h1 ▸ h2)
  · exact Or.inr ⟨h1.trans h2, h1l.trans h2l⟩

theorem legendLE_antisymm_rel (t : String → ℚ) (a b : String)
    (h1 : legendLE t a b) (h2 : legendLE t b a) : a = b := by
  rcases h1 with h1 | ⟨h1, h1l⟩ <;> rcases h2 with h2 | ⟨h2, h2l⟩
  · exact absurd h2 (lt_asymm h1)
  · exact absurd h2 h1.ne
  · exact absurd h1 h2.ne
  · exact le_antisymm h1l h2l

instance (t : String → ℚ) : IsTotal String (legendLE t) := ⟨legendLE_total_rel t⟩

instance (t : String → ℚ) : IsTrans String (legendLE t) := ⟨legendLE_trans_rel t⟩

instance (t : String → ℚ) : IsAntisymm String (legendLE t) := ⟨legendLE_antisymm_rel t⟩

/-- An antisymmetric total preorder sorts any two permutation-equal lists to
the same list. -/
theorem insertionSort_eq_of_perm {α : Type} (r : α → α → Prop) [DecidableRel r]
    [IsTotal α r] [IsTrans α r] [IsAntisymm α r] {l₁ l₂ : List α} (h : l₁.Perm l₂) :
    l₁.insertionSort r = l₂.insertionSort r :=
  List.eq_of_perm_of_sorted
    (((List.perm_insertionSort r l₁).trans h).trans (List.perm_insertionSort r l₂).symm)
    (List.sorted_insertionSort r l₁) (List.sorted_insertionSort r l₂)

theorem sortDates_eq_of_perm {l₁ l₂ : List Nat} (h : l₁.Perm l₂) :
    sortDates l₁ = sortDates l₂ :=
  insertionSort_eq_of_perm _ h

/-! ### Element-wise accumulation lemmas for the `others` vector -/

theorem zipWith_add_getD : ∀ (a b : List ℚ), a.length = b.length → ∀ i : Nat,
    (a.zipWith (· + ·) b).getD i 0 = a.getD i 0 + b.getD i 0
  | [], [], _, _ => by simp
  | [], _ :: _, h, _ => by simp at h
  | _ :: _, [], h, _ => by simp at h
  | a :: as, b :: bs, _, 0 => by simp [List.zipWith]
  | a :: as, b :: bs, h, i + 1 => by
      simp only [List.zipWith, List.getD_cons_succ]
      exact zipWith_add_getD as bs (by simpa using h) i

theorem foldl_zipWith_add_length (v : String → List ℚ) (n : Nat) :
    ∀ (ls : List String) (acc : List ℚ), acc.length = n → (∀ l ∈ ls, (v l).length = n) →
      (ls.foldl (fun acc l => acc.zipWith (· + ·) (v l)) acc).length = n
  | [], acc, ha, _ => ha
  | l :: ls, acc, ha, hv => by
      rw [List.foldl_cons]
      exact foldl_zipWith_add_length v n ls _
        (by rw [List.length_zipWith, ha, hv l (List.mem_cons_self _ _), Nat.min_self])
        (fun l' hl' => hv l' (List.mem_cons_of_mem _ hl'))

theorem foldl_zipWith_add_getD (v : String → List ℚ) (n : Nat) :
    ∀ (ls : List String) (acc : List ℚ), acc.length = n → (∀ l ∈ ls, (v l).length = n) →
      ∀ i : Nat, (ls.foldl (fun acc l => acc.zipWith (· + ·) (v l)) acc).getD i 0
        = acc.getD i 0 + (ls.map fun l => (v l).getD i 0).sum
  | [], acc, _, _, i => by simp
  | l :: ls, acc, ha, hv, i => by
      rw [List.foldl_cons]
      rw [foldl_zipWith_add_getD v n ls _
        (by rw [List.length_zipWith, ha, hv l (List.mem_cons_self _ _), Nat.min_self])
        (fun l' hl' => hv l' (List.mem_cons_of_mem _ hl')) i]
      rw [zipWith_add_getD acc (v l) (by rw [ha, hv l (List.mem_cons_self _ _)]) i]
      simp only [List.map_cons, List.sum_cons]
      ring

theorem getD_replicate_zero (n i : Nat) : (List.replicate n (0 : ℚ)).getD i 0 = 0 := by
  induction n generalizing i with
  | zero => simp
  | succ n ih =>
      cases i with
      | zero => simp [List.replicate]
      | succ i => simpa [List.replicate] using ih i

theorem CostGraph.denseVec_length (g : CostGraph) (l : String) :
    (g.denseVec l).length = g.Len := by
  simp [denseVec, Len]

theorem CostGraph.othersVec_length (g : CostGraph) : g.othersVec.length = g.Len :=
  foldl_zipWith_add_length _ _ _ _ (List.length_replicate _ _)
    (fun l _ => g.denseVec_length l)

theorem CostGraph.othersVec_getD (g : CostGraph) (i : Nat) :
    g.othersVec.getD i 0
      = ((g.legends.filter fun l => l ∉ g.topLegends).map
          fun l => (g.denseVec l).getD i 0).sum := by
  unfold othersVec
  rw [foldl_zipWith_add_getD g.denseVec g.Len _ _ (List.length_replicate _ _)
    (fun l _ => g.denseVec_length l) i]
  rw [getD_replicate_zero, zero_add]

/-! ### Congruence: the render output depends only on the legend set, the axis
and the zero-defaulted cost lookup -/

theorem list_eq_of_getD {a b : List ℚ} (hlen : a.length = b.length)
    (h : ∀ i, a.getD i 0 = b.getD i 0) : a = b := by
  apply List.ext_getElem hlen
  intro i h1 h2
  have hi := h i
  rwa [List.getD_eq_getElem a 0 h1, List.getD_eq_getElem b 0 h2] at hi

theorem CostGraph.denseVec_congr {g₁ g₂ : CostGraph} (hD : g₁.Dates = g₂.Dates)
    (hc : ∀ l d, (g₁.cost l d).getD 0 = (g₂.cost l d).getD 0) :
    g₁.denseVec = g₂.denseVec := by
  funext l
  unfold denseVec
  rw [hD]
  exact List.map_congr_left fun d _ => hc l d

theorem CostGraph.total_congr {g₁ g₂ : CostGraph} (hD : g₁.Dates = g₂.Dates)
    (hc : ∀ l d, (g₁.cost l d).getD 0 = (g₂.cost l d).getD 0) :
    g₁.total = g₂.total := by
  funext l
  unfold total
  rw [denseVec_congr hD hc]

theorem CostGraph.sortedLegends_congr {g₁ g₂ : CostGraph}
    (hL : g₁.legends.Perm g₂.legends) (hD : g₁.Dates = g₂.Dates)
    (hc : ∀ l d, (g₁.cost l d).getD 0 = (g₂.cost l d).getD 0) :
    g₁.sortedLegends = g₂.sortedLegends := by
  unfold sortedLegends
  rw [total_congr hD hc]
  exact insertionSort_eq_of_perm _ hL

theorem CostGraph.topLegends_congr {g₁ g₂ : CostGraph}
    (hL : g₁.legends.Perm g₂.legends) (hD : g₁.Dates = g₂.Dates)
    (hc : ∀ l d, (g₁.cost l d).getD 0 = (g₂.cost l d).getD 0) :
    g₁.topLegends = g₂.topLegends := by
  unfold topLegends
  rw [sortedLegends_congr hL hD hc]

theorem CostGraph.othersVec_congr {g₁ g₂ : CostGraph}
    (hL : g₁.legends.Perm g₂.legends) (hD : g₁.Dates = g₂.Dates)
    (hc : ∀ l d, (g₁.cost l d).getD 0 = (g₂.cost l d).getD 0) :
    g₁.othersVec = g₂.othersVec := by
  have hdv := denseVec_congr hD hc
  have htop := topLegends_congr hL hD hc
  apply list_eq_of_getD
  · rw [othersVec_length, othersVec_length]
    simp only [Len, hD]
  · intro i
    rw [othersVec_getD, othersVec_getD, hdv, htop]
    exact ((hL.filter _).map _).sum_eq

theorem CostGraph.afterVec_congr {g₁ g₂ : CostGraph}
    (hL : g₁.legends.Perm g₂.legends) (hD : g₁.Dates = g₂.Dates)
    (hc : ∀ l d, (g₁.cost l d).getD 0 = (g₂.cost l d).getD 0) :
    g₁.afterVec = g₂.afterVec := by
  funext l
  unfold afterVec
  rw [othersVec_congr hL hD hc, denseVec_congr hD hc]

theorem CostGraph.reducedSeries_congr {g₁ g₂ : CostGraph}
    (hL : g₁.legends.Perm g₂.legends) (hD : g₁.Dates = g₂.Dates)
    (hc : ∀ l d, (g₁.cost l d).getD 0 = (g₂.cost l d).getD 0) :
    g₁.reducedSeries = g₂.reducedSeries := by
  unfold reducedSeries
  rw [hL.length_eq, topLegends_congr hL hD hc, afterVec_congr hL hD hc,
    sortedLegends_congr hL hD hc, denseVec_congr hD hc]

theorem CostGraph.reducedCount_congr {g₁ g₂ : CostGraph}
    (hL : g₁.legends.Perm g₂.legends) (hD : g₁.Dates = g₂.Dates)
    (hc : ∀ l d, (g₁.cost l d).getD 0 = (g₂.cost l d).getD 0) :
    g₁.reducedCount = g₂.reducedCount := by
  unfold reducedCount
  rw [hL.length_eq, topLegends_congr hL hD hc, (hL.dedup).length_eq]

theorem except_mapM_ok (l : List (String × List ℚ)) :
    (l.mapM fun s => do
        let v ← newBarChart s.2
        pure (s.1, v) : Except String (List (String × List ℚ))) = Except.ok l := by
  induction l with
  | nil => rfl
  | cons x xs ih =>
      rw [List.mapM_cons, ih]
      rfl

theorem CostGraph.WriteTo_eq (g : CostGraph) (t y : String) :
    g.WriteTo t y = Except.ok
      { title := t, yLabel := y, series := g.reducedSeries,
        legendEntries :=
          if 1 < g.reducedCount then g.reducedSeries.map Prod.fst else [],
        axisDates := g.Dates } := by
  unfold WriteTo
  rw [except_mapM_ok]
  rfl

theorem CostGraph.WriteTo_congr {g₁ g₂ : CostGraph}
    (hL : g₁.legends.Perm g₂.legends) (hD : g₁.Dates = g₂.Dates)
    (hc : ∀ l d, (g₁.cost l d).getD 0 = (g₂.cost l d).getD 0) (t y : String) :
    g₁.WriteTo t y = g₂.WriteTo t y := by
  rw [WriteTo_eq, WriteTo_eq, reducedSeries_congr hL hD hc,
    reducedCount_congr hL hD hc, hD]

/-! ### Partitioning the legends into kept top legends and the rest -/

theorem CostGraph.sortedLegends_perm (g : CostGraph) :
    g.sortedLegends.Perm g.legends :=
  List.perm_insertionSort _ _

theorem CostGraph.sum_split (g : CostGraph) (hn : g.legends.Nodup) (f : String → ℚ) :
    (g.legends.map f).sum
      = (g.topLegends.map f).sum
        + ((g.legends.filter fun l => l ∉ g.topLegends).map f).sum := by
  have hperm := g.sortedLegends_perm
  have hnod : g.sortedLegends.Nodup := hperm.nodup_iff.mpr hn
  have hsplit : g.topLegends ++ g.sortedLegends.drop (maxSeries - 1) = g.sortedLegends :=
    List.take_append_drop _ _
  have hdisj : ∀ a ∈ g.sortedLegends.drop (maxSeries - 1), a ∉ g.topLegends := by
    rw [← hsplit] at hnod
    rcases List.nodup_append.mp hnod with ⟨-, -, hd⟩
    intro a ha hmem
    exact hd hmem ha
  have hmain : (g.sortedLegends.map f).sum
      = (g.topLegends.map f).sum
        + ((g.sortedLegends.drop (maxSeries - 1)).map f).sum := by
    conv_lhs => rw [← hsplit]
    rw [List.map_append, List.sum_append]
  have hfil : ((g.legends.filter fun l => l ∉ g.topLegends).map f).sum
      = ((g.sortedLegends.drop (maxSeries - 1)).map f).sum := by
    rw [(((hperm.filter _).symm.map f).sum_eq)]
    congr 1
    conv_lhs => rw [← hsplit]
    rw [List.filter_append]
    have h2 : (g.topLegends.filter fun l => l ∉ g.topLegends) = [] := by
      rw [List.filter_eq_nil]
      intro a ha
      simp [ha]
    have h3 : ((g.sortedLegends.drop (maxSeries - 1)).filter
        fun l => l ∉ g.topLegends) = g.sortedLegends.drop (maxSeries - 1) := by
      rw [List.filter_eq_self]
      intro a ha
      simpa using hdisj a ha
    rw [h2, h3, List.nil_append]
  rw [← (hperm.map f).sum_eq, hmain, hfil]

/-- When reduction occurs and no kept top legend is literally `"Others"`, the
drawn series are the top legends with their own dense vectors followed by the
synthetic `"Others"` series. -/
theorem CostGraph.reducedSeries_shape (g : CostGraph)
    (h : maxSeries < g.legends.length) (ho : "Others" ∉ g.topLegends) :
    g.reducedSeries
      = (g.topLegends.map fun l => (l, g.denseVec l))
        ++ [("Others", g.othersVec)] := by
  unfold reducedSeries
  rw [if_pos h, List.map_append]
  congr 1
  refine List.map_congr_left fun l hl => ?_
  unfold afterVec
  rw [if_neg]
  intro he
  exact ho (he ▸ hl)

/-! ### Concrete stores used by witnesses and counterexamples -/

set_option maxRecDepth 100000

/-- Eleven points: eleven distinct legends including a real `"Others"` legend
whose total dominates, all totals pairwise distinct. -/
def pointsCollide : List DataPoint :=
  [⟨0, 100, "Others"⟩, ⟨0, 11, "A"⟩, ⟨0, 10, "B"⟩, ⟨0, 9, "C"⟩, ⟨0, 8, "D"⟩,
   ⟨0, 7, "E"⟩, ⟨0, 6, "F"⟩, ⟨0, 5, "G"⟩, ⟨0, 4, "H"⟩, ⟨0, 3, "I"⟩, ⟨0, 2, "J"⟩]

/-- The store after recording `pointsCollide`. -/
def gCollide : CostGraph := NewCostGraph.insertAll pointsCollide

/-- Eleven points with eleven distinct legends, none called `"Others"`,
all totals pairwise distinct. -/
def pointsEleven : List DataPoint :=
  [⟨0, 12, "K"⟩, ⟨0, 11, "A"⟩, ⟨0, 10, "B"⟩, ⟨0, 9, "C"⟩, ⟨0, 8, "D"⟩,
   ⟨0, 7, "E"⟩, ⟨0, 6, "F"⟩, ⟨0, 5, "G"⟩, ⟨0, 4, "H"⟩, ⟨0, 3, "I"⟩, ⟨0, 2, "J"⟩]

/-- The store after recording `pointsEleven`. -/
def gEleven : CostGraph := NewCostGraph.insertAll pointsEleven

/-- C1 (amended). Total preservation of reduction: for every store and every
axis index, the sum over the drawn (reduced) series of the dense value at that
index equals the sum over all recorded series of their dense value there,
whether or not the 10-series cap was exceeded — provided the legend keys are
distinct (as Go map keys are) and, when reduction occurs, no kept top legend
is literally `"Others"`. -/
theorem C1_total_preservation (g : CostGraph) (i : Nat) (hn : g.legends.Nodup)
    (ho : maxSeries < g.legends.length → "Others" ∉ g.topLegends) :
    (g.reducedSeries.map fun s => s.2.getD i 0).sum
      = (g.legends.map fun l => (g.denseVec l).getD i 0).sum := by
  by_cases h : maxSeries < g.legends.length
  · rw [CostGraph.reducedSeries_shape g h (ho h), List.map_append, List.sum_append,
      List.map_map, CostGraph.sum_split g hn fun l => (g.denseVec l).getD i 0]
    congr 1
    rw [List.map_singleton, List.sum_singleton]
    exact CostGraph.othersVec_getD g i
  · unfold CostGraph.reducedSeries
    rw [if_neg h, List.map_map]
    exact (g.sortedLegends_perm.map _).sum_eq

/-- C1 witness: the amended hypotheses hold at a concrete 11-legend store and
the theorem yields the preservation equation there. -/
theorem C1_witness :
    gEleven.legends.Nodup
    ∧ (maxSeries < gEleven.legends.length → "Others" ∉ gEleven.topLegends)
    ∧ (gEleven.reducedSeries.map fun s => s.2.getD 0 0).sum
        = (gEleven.legends.map fun l => (gEleven.denseVec l).getD 0 0).sum :=
  ⟨by decide, by decide, C1_total_preservation gEleven 0 (by decide) (by decide)⟩

/-- C1 counterexample: with eleven legends one of which is a real `"Others"`
series ranked in the top 9, the drawn series sum at date index 0 is 12 while
the recorded series sum is 110 — the claim as stated fails on this input. -/
theorem C1_counterexample :
    ¬ ((gCollide.reducedSeries.map fun s => s.2.getD 0 0).sum
        = (gCollide.legends.map fun l => (gCollide.denseVec l).getD 0 0).sum) := by
  decide

/-- C2 (amended). Series cap and Others placement: the drawn series list never
has more than 10 entries, for any store whatsoever; when the legend count
exceeds 10 and no kept top legend is literally `"Others"`, the drawn series
are exactly the top `maxSeries - 1 = 9` legends of the sorted order with
their own dense vectors, followed last by the synthetic `"Others"` series
holding the element-wise sum of the remaining legends' vectors; when the
legend count is at most 10, every legend is kept, in sorted order. -/
theorem C2_cap_and_others (g : CostGraph) :
    g.reducedSeries.length ≤ maxSeries
    ∧ (maxSeries < g.legends.length → "Others" ∉ g.topLegends →
        g.reducedSeries
          = (g.topLegends.map fun l => (l, g.denseVec l))
            ++ [("Others", g.othersVec)]
        ∧ g.topLegends.length = maxSeries - 1)
    ∧ (g.legends.length ≤ maxSeries →
        g.reducedSeries = g.sortedLegends.map fun l => (l, g.denseVec l)) := by
  have hlen : g.sortedLegends.length = g.legends.length :=
    g.sortedLegends_perm.length_eq
  refine ⟨?_, fun h ho => ⟨CostGraph.reducedSeries_shape g h ho, ?_⟩, fun h => ?_⟩
  · unfold CostGraph.reducedSeries
    split <;> rename_i h
    · rw [List.length_map, List.length_append, List.length_singleton,
        CostGraph.topLegends, List.length_take, hlen]
      simp only [maxSeries] at h ⊢
      omega
    · rw [List.length_map, hlen]
      exact Nat.not_lt.mp h
  · rw [CostGraph.topLegends, List.length_take, hlen]
    simp only [maxSeries] at h ⊢
    omega
  · unfold CostGraph.reducedSeries
    rw [if_neg (Nat.not_lt.mpr h)]

/-- C2 witness: at a concrete 11-legend store with no real `"Others"` series,
the cap holds and the drawn series are the top 9 plus the `"Others"` sum. -/
theorem C2_witness :
    gEleven.reducedSeries.length ≤ maxSeries
    ∧ gEleven.reducedSeries
        = (gEleven.topLegends.map fun l => (l, gEleven.denseVec l))
          ++ [("Others", gEleven.othersVec)] :=
  ⟨(C2_cap_and_others gEleven).1,
    ((C2_cap_and_others gEleven).2.1 (by decide) (by decide)).1⟩

/-- C2 counterexample: with a real `"Others"` legend ranked in the top 9, the
kept `"Others"` entry does not hold its own dense vector (the synthetic sum
overwrites it), so the reduced set is not "the top 9 labels plus the
synthetic Others" as the claim states. -/
theorem C2_counterexample :
    maxSeries < gCollide.legends.length
    ∧ gCollide.reducedSeries
        ≠ (gCollide.topLegends.map fun l => (l, gCollide.denseVec l))
          ++ [("Others", gCollide.othersVec)] := by
  decide

/-! ### Run equivalence up to insertion order -/

theorem CostGraph.Dates_of_cache_none (g : CostGraph) (h : g.cache = none) :
    g.Dates = sortDates g.dates := by
  unfold Dates
  rw [h]

theorem CostGraph.cost_insertAll_empty (ps : List DataPoint)
    (hn : (ps.map DataPoint.ident).Nodup) (l : String) (d : Nat) (c : ℚ) :
    (NewCostGraph.insertAll ps).cost l d = some c ↔ (⟨d, c, l⟩ : DataPoint) ∈ ps := by
  constructor
  · intro h
    by_cases hex : ∀ p ∈ ps, ¬(p.legend = l ∧ p.date = d)
    · rw [cost_insertAll_of_not_mem _ _ _ _ hex] at h
      exact absurd h (by simp [NewCostGraph])
    · push_neg at hex
      obtain ⟨p, hp, hpl, hpd⟩ := hex
      have hc := cost_insertAll_of_mem NewCostGraph ps p hn hp
      rw [hpl, hpd] at hc
      rw [hc] at h
      obtain rfl : p.cost = c := Option.some.inj h
      have hpe : p = ⟨d, p.cost, l⟩ := by
        obtain ⟨pd, pc, pl⟩ := p
        simp only at hpl hpd
        rw [hpl, hpd]
      rwa [← hpe]
  · intro h
    exact cost_insertAll_of_mem NewCostGraph ps ⟨d, c, l⟩ hn h

theorem CostGraph.cost_insertAll_congr {ps qs : List DataPoint}
    (hn : (ps.map DataPoint.ident).Nodup) (hperm : ps.Perm qs) :
    (NewCostGraph.insertAll ps).cost = (NewCostGraph.insertAll qs).cost := by
  have hn' : (qs.map DataPoint.ident).Nodup := ((hperm.map _).nodup_iff).mp hn
  funext l d
  rcases hc : (NewCostGraph.insertAll ps).cost l d with _ | c
  · rcases hq : (NewCostGraph.insertAll qs).cost l d with _ | c
    · rfl
    · exfalso
      have hmem := (cost_insertAll_empty qs hn' l d c).mp hq
      have := (cost_insertAll_empty ps hn l d c).mpr (hperm.mem_iff.mpr hmem)
      rw [hc] at this
      exact Option.noConfusion this
  · have hmem := (cost_insertAll_empty ps hn l d c).mp hc
    exact ((cost_insertAll_empty qs hn' l d c).mpr (hperm.mem_iff.mp hmem)).symm

theorem CostGraph.legends_insertAll_perm {ps qs : List DataPoint}
    (hperm : ps.Perm qs) :
    (NewCostGraph.insertAll ps).legends.Perm (NewCostGraph.insertAll qs).legends := by
  rw [List.perm_ext_iff_of_nodup
    (nodup_legends_insertAll NewCostGraph ps List.nodup_nil)
    (nodup_legends_insertAll NewCostGraph qs List.nodup_nil)]
  intro a
  rw [mem_legends_insertAll, mem_legends_insertAll]
  exact or_congr Iff.rfl (hperm.map DataPoint.legend).mem_iff

theorem CostGraph.Dates_insertAll_congr {ps qs : List DataPoint}
    (hperm : ps.Perm qs) :
    (NewCostGraph.insertAll ps).Dates = (NewCostGraph.insertAll qs).Dates := by
  rw [Dates_of_cache_none _ (cache_insertAll NewCostGraph ps rfl),
    Dates_of_cache_none _ (cache_insertAll NewCostGraph qs rfl)]
  apply sortDates_eq_of_perm
  rw [List.perm_ext_iff_of_nodup
    (nodup_dates_insertAll NewCostGraph ps List.nodup_nil)
    (nodup_dates_insertAll NewCostGraph qs List.nodup_nil)]
  intro a
  rw [mem_dates_insertAll, mem_dates_insertAll]
  exact or_congr Iff.rfl (hperm.map DataPoint.date).mem_iff

/-- C3 (amended). Insertion-order independence: for two runs that insert the
same finite set of points — in the sense of two insertion sequences that are
permutations of each other with pairwise-distinct `(label, date)` identities —
the render operation produces identical output: the same reduced legends in
the same order, the same dense vectors including the `"Others"` accumulation,
the same legend entries and the same axis. -/
theorem C3_determinism (ps qs : List DataPoint) (t y : String)
    (hn : (ps.map DataPoint.ident).Nodup) (hperm : ps.Perm qs) :
    (NewCostGraph.insertAll ps).WriteTo t y
      = (NewCostGraph.insertAll qs).WriteTo t y :=
  CostGraph.WriteTo_congr (CostGraph.legends_insertAll_perm hperm)
    (CostGraph.Dates_insertAll_congr hperm)
    (fun l d => by rw [CostGraph.cost_insertAll_congr hn hperm]) t y

/-- C3 witness: two concrete two-point runs in swapped order with distinct
identities render identically. -/
theorem C3_witness :
    (([⟨0, 1, "A"⟩, ⟨1, 2, "B"⟩] : List DataPoint).map DataPoint.ident).Nodup
    ∧ ([⟨0, 1, "A"⟩, ⟨1, 2, "B"⟩] : List DataPoint).Perm [⟨1, 2, "B"⟩, ⟨0, 1, "A"⟩]
    ∧ (NewCostGraph.insertAll [⟨0, 1, "A"⟩, ⟨1, 2, "B"⟩]).WriteTo "t" "y"
        = (NewCostGraph.insertAll [⟨1, 2, "B"⟩, ⟨0, 1, "A"⟩]).WriteTo "t" "y" :=
  ⟨by decide, by decide,
    C3_determinism [⟨0, 1, "A"⟩, ⟨1, 2, "B"⟩] [⟨1, 2, "B"⟩, ⟨0, 1, "A"⟩] "t" "y"
      (by decide) (by decide)⟩

/-- C3 counterexample: the claim quantifies over every finite set of points;
for the set holding the two points `(date 0, cost 1, "A")` and
`(date 0, cost 2, "A")` — distinct points with the same `(label, date)`
identity — the two insertion orders yield different renders, because
last-write-wins keeps different costs. -/
theorem C3_counterexample :
    ([⟨0, 1, "A"⟩, ⟨0, 2, "A"⟩] : List DataPoint).Perm [⟨0, 2, "A"⟩, ⟨0, 1, "A"⟩]
    ∧ (NewCostGraph.insertAll [⟨0, 1, "A"⟩, ⟨0, 2, "A"⟩]).WriteTo "t" "y"
        ≠ (NewCostGraph.insertAll [⟨0, 2, "A"⟩, ⟨0, 1, "A"⟩]).WriteTo "t" "y" := by
  refine ⟨by decide, ?_⟩
  rw [CostGraph.WriteTo_eq, CostGraph.WriteTo_eq]
  intro h
  have h3 : (NewCostGraph.insertAll [⟨0, 1, "A"⟩, ⟨0, 2, "A"⟩]).reducedSeries
      = (NewCostGraph.insertAll [⟨0, 2, "A"⟩, ⟨0, 1, "A"⟩]).reducedSeries :=
    congrArg RenderOutput.series (Except.ok.inj h)
  revert h3
  decide

/-! ### Observational equivalence across the render-time state mutation -/

/-- Two store states that the public operations cannot tell apart: same legend
keys, same recorded date set, same axis, and the same zero-defaulted cost at
every (legend, date). -/
def ObsEq (g₁ g₂ : CostGraph) : Prop :=
  g₁.legends = g₂.legends ∧ g₁.dates = g₂.dates ∧ g₁.Dates = g₂.Dates ∧
    ∀ l d, (g₁.cost l d).getD 0 = (g₂.cost l d).getD 0

theorem obsEq_writeToState (g : CostGraph) : ObsEq g.writeToState g := by
  refine ⟨rfl, rfl, rfl, fun l d => ?_⟩
  simp only [CostGraph.writeToState]
  split
  · rename_i h
    rw [h.2.2]
    rfl
  · rfl

theorem obsEq_AddDataPoint {g₁ g₂ : CostGraph} (h : ObsEq g₁ g₂) (t : Nat)
    (c : ℚ) (l : String) :
    ObsEq (g₁.AddDataPoint t c l) (g₂.AddDataPoint t c l) := by
  obtain ⟨hl, hd, hD, hc⟩ := h
  refine ⟨?_, ?_, ?_, fun l' d' => ?_⟩
  · simp only [CostGraph.AddDataPoint, hl]
  · simp only [CostGraph.AddDataPoint, hd]
  · rw [CostGraph.Dates_of_cache_none _ rfl, CostGraph.Dates_of_cache_none _ rfl]
    simp only [CostGraph.AddDataPoint, hd]
  · simp only [CostGraph.AddDataPoint]
    split
    · rfl
    · exact hc l' d'

theorem obsEq_insertAll {g₁ g₂ : CostGraph} (h : ObsEq g₁ g₂)
    (qs : List DataPoint) : ObsEq (g₁.insertAll qs) (g₂.insertAll qs) := by
  induction qs generalizing g₁ g₂ with
  | nil => exact h
  | cons q qs ih =>
      rw [CostGraph.insertAll_cons, CostGraph.insertAll_cons]
      exact ih (obsEq_AddDataPoint h q.date q.cost q.legend)

theorem WriteTo_eq_of_obsEq {g₁ g₂ : CostGraph} (h : ObsEq g₁ g₂)
    (t y : String) : g₁.WriteTo t y = g₂.WriteTo t y :=
  CostGraph.WriteTo_congr (h.1 ▸ List.Perm.refl g₁.legends) h.2.2.1 h.2.2.2 t y

/-- C9 (amended). Render frame condition: besides caching the sorted date
list, a render call also zero-fills every missing (legend, axis-date) cost
entry in the store; both mutations are observationally invisible — after any
further sequence of insertions, a store that went through a render renders
exactly as the same store that did not, and with no further insertions two
consecutive renders return the same result. -/
theorem C9_render_frame (g : CostGraph) (qs : List DataPoint) (t y : String) :
    (g.writeToState.insertAll qs).WriteTo t y = (g.insertAll qs).WriteTo t y :=
  WriteTo_eq_of_obsEq (obsEq_insertAll (obsEq_writeToState g) qs) t y

/-- C9 counterexample: the claim states that the tick cache is the only
internal mutation of a render call; but on the concrete store holding "A" at
date 0 and "B" at date 1, the render's fill loop changes the stored cost of
("A", 1) from absent to an explicit zero entry. -/
theorem C9_counterexample :
    (NewCostGraph.insertAll [⟨0, 1, "A"⟩, ⟨1, 2, "B"⟩]).writeToState.cost "A" 1
      ≠ (NewCostGraph.insertAll [⟨0, 1, "A"⟩, ⟨1, 2, "B"⟩]).cost "A" 1
    ∧ (NewCostGraph.insertAll [⟨0, 1, "A"⟩, ⟨1, 2, "B"⟩]).writeToState.cost "A" 1
        = some 0
    ∧ (NewCostGraph.insertAll [⟨0, 1, "A"⟩, ⟨1, 2, "B"⟩]).cost "A" 1 = none := by
  decide

/-! ### Tick decimation -/

theorem length_filter_filterMap {α β : Type} (F : α → Option β) (P : β → Bool) :
    ∀ L : List α,
      ((L.filterMap F).filter P).length
        = L.countP fun x => match F x with | some b => P b | none => false := by
  intro L
  induction L with
  | nil => rfl
  | cons a L ih =>
      rw [List.filterMap_cons, List.countP_cons]
      rcases hF : F a with _ | b
      · simpa [hF] using ih
      · rw [List.filter_cons]
        by_cases hP : P b
        · simp [hF, hP, ih]
        · simp [hF, hP, ih]

theorem countRange_dvd_le (n s : Nat) (c : ℤ) (hs : 0 < s) (hn : n ≤ 8 * s) :
    ((List.range n).countP fun i : Nat => decide ((s:ℤ) ∣ ((i:ℤ) + c))) ≤ 8 := by
  rw [List.countP_eq_length_filter]
  set L := (List.range n).filter (fun i : Nat => decide ((s:ℤ) ∣ ((i:ℤ) + c))) with hL
  have hmemL : ∀ i ∈ L, i < n ∧ (s:ℤ) ∣ ((i:ℤ) + c) := by
    intro i hi
    rw [hL, List.mem_filter, List.mem_range] at hi
    exact ⟨hi.1, of_decide_eq_true hi.2⟩
  have hnodup : L.Nodup := (List.nodup_range n).filter _
  have hinj : ∀ i ∈ L, ∀ j ∈ L, i / s = j / s → i = j := by
    intro i hi j hj hdiv
    obtain ⟨-, hdi⟩ := hmemL i hi
    obtain ⟨-, hdj⟩ := hmemL j hj
    have hdvd : (s:ℤ) ∣ ((i:ℤ) - (j:ℤ)) := by
      have := Int.dvd_sub hdi hdj
      simpa using this
    have hmodZ : (i:ℤ) % (s:ℤ) = (j:ℤ) % (s:ℤ) :=
      Int.ModEq.symm (Int.modEq_iff_dvd.mpr hdvd)
    have hmodN : i % s = j % s := by
      have h1 : ((i % s : Nat) : ℤ) = ((j % s : Nat) : ℤ) := by
        push_cast
        exact hmodZ
      exact_mod_cast h1
    calc i = s * (i / s) + i % s := (Nat.div_add_mod i s).symm
      _ = s * (j / s) + j % s := by rw [hdiv, hmodN]
      _ = j := Nat.div_add_mod j s
  have hmapnodup : (L.map (· / s)).Nodup :=
    hnodup.map_on fun i hi j hj h => hinj i hi j hj h
  have hsub : (L.map (· / s)) ⊆ List.range 8 := by
    intro x hx
    obtain ⟨i, hi, rfl⟩ := List.mem_map.mp hx
    rw [List.mem_range]
    exact (Nat.div_lt_iff_lt_mul hs).mpr (lt_of_lt_of_le (hmemL i hi).1 hn)
  calc L.length = (L.map (· / s)).length := (List.length_map _ _).symm
    _ ≤ (List.range 8).length := (List.subperm_of_subset hmapnodup hsub).length_le
    _ = 8 := List.length_range 8

theorem floor_sub_nat (i : Nat) (lo : ℚ) : ⌊(i:ℚ) - lo⌋ = (i:ℤ) + ⌊-lo⌋ := by
  rw [sub_eq_add_neg, Int.floor_nat_add]

/-- The number of non-empty tick labels never exceeds `maxLabels`, for any
date list and any axis bounds. -/
theorem ticksOf_count_le (dates : List Nat) (lo hi : ℚ) :
    ((ticksOf dates lo hi).filter fun t => t.label ≠ "").length ≤ maxLabels := by
  by_cases hd : dates = []
  · subst hd
    simp [ticksOf, maxLabels]
  · have hn : 0 < dates.length := List.length_pos.mpr hd
    unfold ticksOf
    rw [length_filter_filterMap]
    have hs : 0 < tickInterval dates.length := by
      simp only [tickInterval, maxLabels]
      omega
    have hceil : dates.length ≤ 8 * tickInterval dates.length := by
      simp only [tickInterval, maxLabels]
      omega
    refine le_trans (List.countP_mono_left (q := fun p : Nat × Nat =>
        decide ((tickInterval dates.length : ℤ) ∣ ((p.1:ℤ) + ⌊-lo⌋))) ?_) ?_
    · rintro ⟨i, d⟩ - h
      dsimp only at h
      simp only [decide_eq_true_eq]
      by_contra hndvd
      have hmod : ⌊(i:ℚ) - lo⌋ % (tickInterval dates.length : ℤ) ≠ 0 := by
        rw [floor_sub_nat]
        intro h0
        exact hndvd (Int.dvd_of_emod_eq_zero h0)
      rw [if_pos hmod] at h
      split at h
      · rename_i b hguard
        split at hguard
        · cases Option.some.inj hguard
          simp at h
        · exact Option.noConfusion hguard
      · exact Bool.noConfusion h
    · have hcomp : dates.enum.countP (fun p : Nat × Nat =>
          decide ((tickInterval dates.length : ℤ) ∣ ((p.1:ℤ) + ⌊-lo⌋)))
          = (List.range dates.length).countP (fun i : Nat =>
              decide ((tickInterval dates.length : ℤ) ∣ ((i:ℤ) + ⌊-lo⌋))) := by
        rw [← List.enum_map_fst dates, List.countP_map]
        rfl
      rw [hcomp]
      exact countRange_dvd_le dates.length (tickInterval dates.length) ⌊-lo⌋ hs hceil

/-- Every date index inside the bounds produces a tick at that position. -/
theorem ticksOf_complete (dates : List Nat) (lo hi : ℚ) (i : Nat)
    (h : i < dates.length) (h1 : lo ≤ (i:ℚ)) (h2 : (i:ℚ) ≤ hi) :
    ∃ t ∈ ticksOf dates lo hi, t.value = (i:ℚ) := by
  refine ⟨⟨(i:ℚ), if ⌊(i:ℚ) - lo⌋ % (tickInterval dates.length : ℤ) ≠ 0 then ""
    else formatDate (dates.get ⟨i, h⟩)⟩, ?_, rfl⟩
  unfold ticksOf
  rw [List.mem_filterMap]
  refine ⟨(i, dates.get ⟨i, h⟩), ?_, ?_⟩
  · rw [List.mem_enum_iff_get?]
    exact List.get?_eq_get h
  · rw [if_pos ⟨h1, h2⟩]

/-- Every emitted tick sits at an in-range date index, and its label is
non-empty only when the floor offset from the lower bound is a multiple of
the stride. -/
theorem ticksOf_sound (dates : List Nat) (lo hi : ℚ) (t : Tick)
    (ht : t ∈ ticksOf dates lo hi) :
    ∃ i : Nat, i < dates.length ∧ t.value = (i:ℚ) ∧ lo ≤ (i:ℚ) ∧ (i:ℚ) ≤ hi ∧
      (t.label ≠ "" → (tickInterval dates.length : ℤ) ∣ ⌊(i:ℚ) - lo⌋) := by
  unfold ticksOf at ht
  rw [List.mem_filterMap] at ht
  obtain ⟨⟨i, d⟩, hmem, hF⟩ := ht
  rw [List.mem_enum_iff_get?] at hmem
  obtain ⟨hlen, -⟩ := List.get?_eq_some.mp hmem
  dsimp only at hF
  split at hF
  · rename_i hguard
    cases Option.some.inj hF
    refine ⟨i, hlen, rfl, hguard.1, hguard.2, fun hlab => ?_⟩
    by_cases hmod : ⌊(i:ℚ) - lo⌋ % (tickInterval dates.length : ℤ) ≠ 0
    · rw [if_pos hmod] at hlab
      exact absurd rfl hlab
    · exact Int.dvd_of_emod_eq_zero (by omega)
  · exact Option.noConfusion hF

/-- C5. Tick decimation bound: for every non-empty date set the stride is the
ceiling of the date count over `maxLabels = 8` (characterized by the two-sided
inequality), a tick is emitted for every in-range date index, a non-empty
label appears only at stride multiples of the floor offset from the lower
bound, and the number of non-empty labels never exceeds 8; in particular 30
dates give stride 4 with exactly 8 labels over the full range, and 5 dates
give stride 1 with all 5 dates labeled. -/
theorem C5_tick_decimation :
    (∀ (dates : List Nat) (lo hi : ℚ), dates ≠ [] →
      (maxLabels * (tickInterval dates.length - 1) < dates.length
        ∧ dates.length ≤ maxLabels * tickInterval dates.length)
      ∧ (∀ i : Nat, i < dates.length → lo ≤ (i:ℚ) → (i:ℚ) ≤ hi →
          ∃ t ∈ ticksOf dates lo hi, t.value = (i:ℚ))
      ∧ (∀ t ∈ ticksOf dates lo hi,
          ∃ i : Nat, i < dates.length ∧ t.value = (i:ℚ) ∧ lo ≤ (i:ℚ) ∧ (i:ℚ) ≤ hi ∧
            (t.label ≠ "" → (tickInterval dates.length : ℤ) ∣ ⌊(i:ℚ) - lo⌋))
      ∧ ((ticksOf dates lo hi).filter fun t => t.label ≠ "").length ≤ maxLabels)
    ∧ tickInterval 30 = 4
    ∧ ((ticksOf (List.range 30) 0 29).filter fun t => t.label ≠ "").length = 8
    ∧ tickInterval 5 = 1
    ∧ ∀ t ∈ ticksOf (List.range 5) 0 4, t.label ≠ "" := by
  refine ⟨fun dates lo hi hd => ⟨?_, fun i h h1 h2 => ticksOf_complete dates lo hi i h h1 h2,
      fun t ht => ticksOf_sound dates lo hi t ht, ticksOf_count_le dates lo hi⟩,
    by decide, by decide, by decide, by decide⟩
  have hn : 0 < dates.length := List.length_pos.mpr hd
  simp only [tickInterval, maxLabels]
  omega

/-- C5 witness: the decimation bound instantiated on the 30-date full range. -/
theorem C5_witness :
    (List.range 30 ≠ ([] : List Nat))
    ∧ ((ticksOf (List.range 30) 0 29).filter fun t => t.label ≠ "").length
        ≤ maxLabels :=
  ⟨by decide, (C5_tick_decimation.1 (List.range 30) 0 29 (by decide)).2.2.2⟩

/-- C10. Tick generation is total: the stride is zero exactly when the date
list is empty, in that case the tick loop runs zero iterations (so the modulo
by the stride is never evaluated), and whenever the date list is non-empty
the stride is at least 1. -/
theorem C10_tick_totality (dates : List Nat) (lo hi : ℚ) :
    (tickInterval dates.length = 0 ↔ dates = [])
    ∧ (dates = [] → ticksOf dates lo hi = [])
    ∧ (dates ≠ [] → 1 ≤ tickInterval dates.length) := by
  refine ⟨⟨fun h => ?_, fun h => by subst h; rfl⟩, fun h => by subst h; rfl, fun h => ?_⟩
  · simp only [tickInterval, maxLabels] at h
    exact List.length_eq_zero.mp (by omega)
  · have := List.length_pos.mpr h
    simp only [tickInterval, maxLabels]
    omega

/-- C10 witness: the totality facts at the empty list and at a two-date list. -/
theorem C10_witness :
    (tickInterval (List.length ([] : List Nat)) = 0 ↔ ([] : List Nat) = [])
    ∧ ticksOf [] 0 10 = []
    ∧ 1 ≤ tickInterval [0, 1].length :=
  ⟨(C10_tick_totality [] 0 10).1, (C10_tick_totality [] 0 10).2.1 rfl,
    (C10_tick_totality [0, 1] 0 10).2.2 (by decide)⟩

/-! ### Dense alignment, sort order, empty render, last-write-wins -/

theorem sortDates_sorted (l : List Nat) : (sortDates l).Sorted (· ≤ ·) :=
  List.sorted_insertionSort _ _

theorem sortDates_perm (l : List Nat) : (sortDates l).Perm l :=
  List.perm_insertionSort _ _

/-- A concrete two-label, two-date store: "A" recorded only at date 1,
"B" only at date 2. -/
def gPair : CostGraph := NewCostGraph.insertAll [⟨1, 5, "A"⟩, ⟨2, 7, "B"⟩]

/-- C4. Dense alignment with zero-fill: on a store whose tick cache is absent
or valid and whose recorded date set is duplicate-free (as every reachable
store is), materialization gives every known label a dense vector whose
length is the number of distinct recorded dates, aligned to the strictly
ascending axis, whose i-th entry is the zero-defaulted recorded cost at the
i-th axis date, and in particular 0 wherever no point was recorded. -/
theorem C4_dense_alignment (g : CostGraph) (l : String)
    (hc : g.Dates = sortDates g.dates) (hn : g.dates.Nodup)
    (hl : l ∈ g.legends) :
    (g.denseVec l).length = g.dates.length
    ∧ g.Dates.Sorted (· < ·)
    ∧ (∀ d, d ∈ g.Dates ↔ d ∈ g.dates)
    ∧ (∀ i : Nat, i < g.Dates.length →
        (g.denseVec l).getD i 0 = (g.cost l (g.Dates.getD i 0)).getD 0)
    ∧ (∀ i : Nat, i < g.Dates.length → g.cost l (g.Dates.getD i 0) = none →
        (g.denseVec l).getD i 0 = 0) := by
  have hgetD : ∀ i : Nat, i < g.Dates.length →
      (g.denseVec l).getD i 0 = (g.cost l (g.Dates.getD i 0)).getD 0 := by
    intro i hi
    have hi' : i < (g.denseVec l).length := by
      simpa [CostGraph.denseVec] using hi
    rw [List.getD_eq_getElem _ _ hi', List.getD_eq_getElem _ _ hi]
    simp [CostGraph.denseVec]
  refine ⟨?_, ?_, ?_, hgetD, fun i hi h0 => ?_⟩
  · rw [CostGraph.denseVec, List.length_map, hc, (sortDates_perm g.dates).length_eq]
  · rw [hc]
    have hsnod : (sortDates g.dates).Nodup := (sortDates_perm g.dates).nodup_iff.mpr hn
    exact (sortDates_sorted g.dates).lt_of_le hsnod
  · intro d
    rw [hc]
    exact (sortDates_perm g.dates).mem_iff
  · rw [hgetD i hi, h0]
    rfl

/-- C4 witness: at the concrete two-point store, both hypotheses hold, the
theorem gives the length alignment, and the two dense vectors are
`[5, 0]` and `[0, 7]` — zero-filled at the unobserved dates. -/
theorem C4_witness :
    gPair.Dates = sortDates gPair.dates ∧ gPair.dates.Nodup ∧ "A" ∈ gPair.legends
    ∧ (gPair.denseVec "A").length = gPair.dates.length
    ∧ gPair.denseVec "A" = [5, 0] ∧ gPair.denseVec "B" = [0, 7] :=
  ⟨by decide, by decide, by decide,
    (C4_dense_alignment gPair "A" (by decide) (by decide) (by decide)).1,
    by decide, by decide⟩

/-- C6. Deterministic series ordering: the legend order the renderer draws is
sorted by the comparator "total descending, ties by label ascending", it is a
permutation of the recorded legends, and it is the unique such list — any
list that is a permutation of the legends and sorted by the same comparator
equals it, so identical inputs always produce the same order. -/
theorem C6_sort_order (g : CostGraph) :
    g.sortedLegends.Sorted (legendLE g.total)
    ∧ g.sortedLegends.Perm g.legends
    ∧ ∀ L : List String, L.Perm g.legends → L.Sorted (legendLE g.total) →
        L = g.sortedLegends :=
  ⟨List.sorted_insertionSort _ _, g.sortedLegends_perm, fun _ hp hs =>
    List.eq_of_perm_of_sorted (hp.trans g.sortedLegends_perm.symm) hs
      (List.sorted_insertionSort _ _)⟩

/-- A concrete three-label store with pairwise distinct totals. -/
def gTriple : CostGraph :=
  NewCostGraph.insertAll [⟨0, 1, "A"⟩, ⟨0, 3, "B"⟩, ⟨0, 2, "C"⟩]

/-- C6 witness: the unique sorted order at a concrete three-label store. -/
theorem C6_witness :
    (["B", "C", "A"] : List String).Perm gTriple.legends
    ∧ (["B", "C", "A"] : List String).Sorted (legendLE gTriple.total)
    ∧ (["B", "C", "A"] : List String) = gTriple.sortedLegends :=
  ⟨by decide, by decide, (C6_sort_order gTriple).2.2 _ (by decide) (by decide)⟩

/-- C7. Empty input is not an error: rendering a store with zero recorded
points succeeds, returning a well-defined output with zero drawn series and
no legend entries (and an empty axis). -/
theorem C7_empty_render (t y : String) :
    NewCostGraph.WriteTo t y
      = Except.ok { title := t, yLabel := y, series := [], legendEntries := [],
                    axisDates := [] } := by
  rw [CostGraph.WriteTo_eq]
  rfl

/-- C8 (amended). Last-write-wins insertion: re-inserting a point with the
same `(legend, date)` identity stores exactly the second cost, with no
accumulation, and an insertion changes no other entry. Point insertion is,
however, not the only mutation of the series mapping: the render call also
mutates it, and that second mutation is fully characterized here — it leaves
every entry unchanged or turns an absent entry into an explicit zero, so
neither mutation ever deletes or alters an existing entry. -/
theorem C8_last_write_wins (g : CostGraph) (t : Nat) (c₁ c₂ : ℚ) (l : String) :
    ((g.AddDataPoint t c₁ l).AddDataPoint t c₂ l).cost l t = some c₂
    ∧ (∀ l' d', ¬(l' = l ∧ d' = t) →
        (g.AddDataPoint t c₂ l).cost l' d' = g.cost l' d')
    ∧ (∀ l' d' v, g.cost l' d' = some v →
        ∃ w, (g.AddDataPoint t c₂ l).cost l' d' = some w)
    ∧ (∀ l' d' v, g.cost l' d' = some v → g.writeToState.cost l' d' = some v)
    ∧ (∀ l' d', g.writeToState.cost l' d' = g.cost l' d'
        ∨ (g.cost l' d' = none ∧ g.writeToState.cost l' d' = some 0)) := by
  refine ⟨?_, fun l' d' h => ?_, fun l' d' v hv => ?_, fun l' d' v hv => ?_,
    fun l' d' => ?_⟩
  · simp [CostGraph.AddDataPoint]
  · simp only [CostGraph.AddDataPoint]
    rw [if_neg h]
  · simp only [CostGraph.AddDataPoint]
    split
    · exact ⟨c₂, rfl⟩
    · exact ⟨v, hv⟩
  · simp only [CostGraph.writeToState]
    rw [if_neg]
    · exact hv
    · rintro ⟨-, -, h0⟩
      rw [hv] at h0
      exact Option.noConfusion h0
  · simp only [CostGraph.writeToState]
    split
    · rename_i h
      exact Or.inr ⟨h.2.2, rfl⟩
    · exact Or.inl rfl

/-- C8 witness: overwrite, frame, and the zero-fill characterization at
concrete points. -/
theorem C8_witness :
    ((NewCostGraph.AddDataPoint 0 1 "A").AddDataPoint 0 2 "A").cost "A" 0 = some 2
    ∧ ¬(("B" : String) = "A" ∧ (1 : Nat) = 0)
    ∧ (NewCostGraph.AddDataPoint 0 2 "A").cost "B" 1 = NewCostGraph.cost "B" 1
    ∧ (gPair.writeToState.cost "A" 1 = gPair.cost "A" 1
        ∨ (gPair.cost "A" 1 = none ∧ gPair.writeToState.cost "A" 1 = some 0)) :=
  ⟨(C8_last_write_wins NewCostGraph 0 1 2 "A").1, by decide,
    (C8_last_write_wins NewCostGraph 0 1 2 "A").2.1 "B" 1 (by decide),
    (C8_last_write_wins gPair 0 1 2 "A").2.2.2.2 "A" 1⟩

/-- C8 counterexample: the claim states that point insertion is the only
mutation of the series mapping; but with no insertion at all, the render
call's fill loop (graph.go:66-69) mutates the mapping of the concrete store
holding "A" at date 1 and "B" at date 2, turning the absent entry ("B", 1)
into an explicit zero entry. -/
theorem C8_counterexample :
    gPair.writeToState.cost "B" 1 ≠ gPair.cost "B" 1
    ∧ gPair.cost "B" 1 = none
    ∧ gPair.writeToState.cost "B" 1 = some 0 := by
  decide
